import Mathlib

/-!
Verification of the walica-style shared-expense settlement engine
(`schemas/domain.py`): ledger primitives, per-payment split arithmetic,
event aggregation, and the iterative pairwise netting loop.

Python integers are modelled as `Int` (with `Int.fdiv`/`Int.fmod` for
Python's floor division `//` and `%`), exceptions as `Except String`,
and the in-place mutation of `TmpSummary` objects as explicit state
passing: `resolve` returns the two updated summaries alongside its
result, and the settlement loop threads an explicit list of summaries.
-/

structure User where
  id : String
  name : String
deriving DecidableEq, Repr

def User.alike (self other : User) : Bool :=
  self.id == other.id

structure Asset where
  price : Int
  owner : User
deriving DecidableEq, Repr

structure Debt where
  price : Int
  debtor : User
deriving DecidableEq, Repr

structure Payment where
  id : String
  price : Int
  payer : User
  payees : List User
deriving DecidableEq, Repr

def Payment.debt (p : Payment) (u : User) : Debt :=
  { price := p.price.fdiv p.payees.length, debtor := u }

def Payment.asset (p : Payment) (u : User) : Asset :=
  { price := p.price, owner := u }

structure Exchange where
  price : Int
  payee : User
  payer : User
deriving DecidableEq, Repr

structure Event where
  id : String
  users : List User
  payments : List Payment
deriving DecidableEq, Repr

def Event.debt_for_user (e : Event) (u : User) : Except String (List Debt) :=
  if !(e.users.any (fun user => user.alike u)) then
    Except.error "user not found"
  else
    Except.ok ((e.payments.filter
      (fun p => p.payees.any (fun payee => payee.alike u))).map (fun p => p.debt u))

def Event.assets_for_user (e : Event) (u : User) : Except String (List Asset) :=
  if !(e.users.any (fun user => user.alike u)) then
    Except.error "user not found"
  else
    Except.ok ((e.payments.filter (fun p => p.payer.alike u)).map (fun p => p.asset u))

structure TmpSummary where
  user : User
  total : Int
deriving DecidableEq, Repr

def TmpSummary.done (t : TmpSummary) : Bool :=
  t.total == 0

def bigger (a b : TmpSummary) : TmpSummary :=
  if a.total ≥ b.total then a else b

def smaller (a b : TmpSummary) : TmpSummary :=
  if a.total ≤ b.total then a else b

/-- Model of `TmpSummary.resolve`: the mutation of `self`/`subject` is returned as the
second and third components; an `Except.error` models the raised `ValueError`
(raised before any mutation, so both summaries come back unchanged). -/
def TmpSummary.resolve (self subject : TmpSummary) :
    Except String Exchange × TmpSummary × TmpSummary :=
  if self.total * subject.total ≥ 0 then
    (Except.error "invalid resolve", self, subject)
  else if self.total + subject.total = 0 then
    (Except.ok
      { price := |self.total|
        payee := (bigger { self with total := 0 } { subject with total := 0 }).user
        payer := (smaller { self with total := 0 } { subject with total := 0 }).user },
     { self with total := 0 }, { subject with total := 0 })
  else if |self.total| < |subject.total| then
    (Except.ok
      { price := |self.total|
        payee := (bigger { self with total := 0 }
          { subject with total := self.total + subject.total }).user
        payer := (smaller { self with total := 0 }
          { subject with total := self.total + subject.total }).user },
     { self with total := 0 }, { subject with total := self.total + subject.total })
  else
    (Except.ok
      { price := |subject.total|
        payee := (bigger { self with total := self.total + subject.total }
          { subject with total := 0 }).user
        payer := (smaller { self with total := self.total + subject.total }
          { subject with total := 0 }).user },
     { self with total := self.total + subject.total }, { subject with total := 0 })

def asset_sum (assets : List Asset) : Int :=
  (assets.map (fun a => a.price)).sum

def debt_sum (debts : List Debt) : Int :=
  (debts.map (fun d => d.price)).sum

structure PaymentSummary where
  user : User
  assets : List Asset
  debts : List Debt
deriving DecidableEq, Repr

def PaymentSummary.total (ps : PaymentSummary) : Int :=
  asset_sum ps.assets - debt_sum ps.debts

def PaymentSummary.tmp_summary (ps : PaymentSummary) : TmpSummary :=
  { user := ps.user, total := ps.total }

def Event.payment_summaries (e : Event) : List PaymentSummary :=
  e.users.map (fun u =>
    { user := u
      assets := (e.payments.filter (fun p => p.payer.alike u)).map (fun p => p.asset u)
      debts := (e.payments.filter
        (fun p => p.payees.any (fun payee => payee.alike u))).map (fun p => p.debt u) })

/-- Outcome of a settlement run: the final working set of summaries together
with the emitted exchanges, or the message of an uncaught `ValueError`. -/
inductive RunResult where
  | ok : List TmpSummary → List Exchange → RunResult
  | err : String → RunResult
deriving DecidableEq, Repr

def unsettledOf (tmps : List TmpSummary) : List TmpSummary :=
  tmps.filter (fun t => !t.done)

/-- The body of `PaymentSummaryCollection.exchnange`'s `while True` loop,
with an explicit fuel bound; `none` means the fuel ran out before the loop
reached one of its `break` conditions (proved below never to happen when
the fuel is the length of the input). -/
def exchnangeGo (fuel : Nat) (tmps : List TmpSummary) (exchanges : List Exchange) :
    Option RunResult :=
  if (unsettledOf tmps).length < 2 then
    some (RunResult.ok tmps exchanges)
  else
    match (unsettledOf tmps).find? (fun t => decide (0 < t.total)),
          (unsettledOf tmps).find? (fun t => decide (t.total < 0)) with
    | some pos, some neg =>
      match TmpSummary.resolve pos neg with
      | (Except.ok ex, pos', neg') =>
        match fuel with
        | 0 => none
        | fuel' + 1 =>
          let i := tmps.findIdx (fun t => decide (0 < t.total))
          let j := tmps.findIdx (fun t => decide (t.total < 0))
          exchnangeGo fuel' ((tmps.set i pos').set j neg') (exchanges ++ [ex])
      | (Except.error e, _, _) => some (RunResult.err e)
    | _, _ => some (RunResult.ok tmps exchanges)

/-- The settlement loop on a working set of balances. -/
def exchnangeTmps (tmps : List TmpSummary) : Option RunResult :=
  exchnangeGo tmps.length tmps []

/-- Model of `PaymentSummaryCollection.exchnange`. -/
def exchnange (summaries : List PaymentSummary) : Option RunResult :=
  exchnangeTmps (summaries.map PaymentSummary.tmp_summary)

def sumTotals (tmps : List TmpSummary) : Int :=
  (tmps.map (fun t => t.total)).sum

def posSum (tmps : List TmpSummary) : Int :=
  (tmps.map (fun t => max t.total 0)).sum

def negSum (tmps : List TmpSummary) : Int :=
  (tmps.map (fun t => max (-t.total) 0)).sum

def priceSum (exchanges : List Exchange) : Int :=
  (exchanges.map (fun e => e.price)).sum

/-- Sum of the strictly positive input totals. -/
def posTotalSum (tmps : List TmpSummary) : Int :=
  sumTotals (tmps.filter (fun t => decide (0 < t.total)))

/-- Sum of the absolute values of the strictly negative input totals. -/
def negAbsSum (tmps : List TmpSummary) : Int :=
  ((tmps.filter (fun t => decide (t.total < 0))).map (fun t => -t.total)).sum

/-! ### Concrete fixtures for closed-form checks -/

def userA : User := { id := "A", name := "A" }

def userB : User := { id := "B", name := "B" }

def userC : User := { id := "C", name := "C" }

def userX : User := { id := "X", name := "X" }

def userY : User := { id := "Y", name := "Y" }

def userZ : User := { id := "Z", name := "Z" }

/-- Scenario 1 of the spec: balances `A:+1000, B:-300, C:-700` in roster
order, realized through one asset of `A` and one debt each for `B`, `C`. -/
def summariesScenario1 : List PaymentSummary :=
  [ { user := userA, assets := [{ price := 1000, owner := userA }], debts := [] },
    { user := userB, assets := [], debts := [{ price := 300, debtor := userB }] },
    { user := userC, assets := [], debts := [{ price := 700, debtor := userC }] } ]

/-- A balance list whose totals do not sum to zero and are all positive. -/
def tmpsSameSign : List TmpSummary := [⟨userA, 5⟩, ⟨userB, 3⟩]

/-- Scenario 2 of the spec: the rounding-residue balances `67, -33, -33`. -/
def tmpsResidual : List TmpSummary := [⟨userX, 67⟩, ⟨userY, -33⟩, ⟨userZ, -33⟩]

/-- Scenario 2 of the spec: one payment of 100 split three ways. -/
def payment0 : Payment :=
  { id := "p0", price := 100, payer := userX, payees := [userX, userY, userZ] }

/-! ### List helper lemmas -/

theorem sum_map_set {α : Type} (g : α → Int) (l : List α) (i : Nat) (x : α)
    (h : i < l.length) :
    (((l.set i x).map g).sum + g (l.get ⟨i, h⟩) = (l.map g).sum + g x) := by
  induction l generalizing i with
  | nil => simp at h
  | cons a t ih =>
    cases i with
    | zero =>
      simp [List.set_cons_zero, List.map_cons, List.sum_cons]
      omega
    | succ i =>
      have ht : i < t.length := by simpa using h
      have := ih i ht
      simp only [List.set_cons_succ, List.map_cons, List.sum_cons, List.get_cons_succ]
      omega

theorem sum_map_set2 {α : Type} (g : α → Int) (l : List α) (i j : Nat) (x y : α)
    (hi : i < l.length) (hj : j < l.length) (hij : i ≠ j) :
    ((((l.set i x).set j y).map g).sum + g (l.get ⟨i, hi⟩) + g (l.get ⟨j, hj⟩)
      = (l.map g).sum + g x + g y) := by
  have hj' : j < (l.set i x).length := by simpa using hj
  have h1 := sum_map_set g l i x hi
  have h2 := sum_map_set g (l.set i x) j y hj'
  have hgj : (l.set i x).get ⟨j, hj'⟩ = l.get ⟨j, hj⟩ := List.get_set_ne hij hj'
  rw [hgj] at h2
  omega

theorem find?_filter_of_imp {α : Type} (l : List α) (p q : α → Bool)
    (hpq : ∀ a, p a = true → q a = true) :
    (l.filter q).find? p = l.find? p := by
  induction l with
  | nil => simp
  | cons a t ih =>
    by_cases hq : q a = true
    · by_cases hp : p a = true
      · rw [List.filter_cons, if_pos hq, List.find?_cons_of_pos _ hp,
          List.find?_cons_of_pos _ hp]
      · rw [List.filter_cons, if_pos hq, List.find?_cons_of_neg _ hp,
          List.find?_cons_of_neg _ hp, ih]
    · have hp : ¬ p a = true := fun hp => hq (hpq a hp)
      rw [List.filter_cons, if_neg hq, List.find?_cons_of_neg _ hp, ih]

theorem find?_to_getElem {α : Type} (p : α → Bool) (l : List α) (a : α)
    (h : l.find? p = some a) :
    l.findIdx p < l.length ∧ l[l.findIdx p]? = some a := by
  induction l with
  | nil => simp at h
  | cons x t ih =>
    by_cases hp : p x = true
    · rw [List.find?_cons_of_pos _ hp] at h
      have hax : a = x := by injection h with h; exact h.symm
      subst hax
      refine ⟨?_, ?_⟩ <;> simp [List.findIdx_cons, hp]
    · rw [List.find?_cons_of_neg _ hp] at h
      obtain ⟨h1, h2⟩ := ih h
      have hidx : (x :: t).findIdx p = t.findIdx p + 1 := by
        simp [List.findIdx_cons, hp]
      refine ⟨?_, ?_⟩ <;> rw [hidx]
      · simpa using h1
      · simpa using h2

theorem two_le_length_of_mem_ne {α : Type} {a b : α} {l : List α}
    (ha : a ∈ l) (hb : b ∈ l) (hab : a ≠ b) : 2 ≤ l.length := by
  cases l with
  | nil => simp at ha
  | cons x t =>
    have ht : 0 < t.length := by
      rcases List.mem_cons.mp ha with h | h
      · rcases List.mem_cons.mp hb with h' | h'
        · exact absurd (h.trans h'.symm) hab
        · exact List.length_pos.mpr (List.ne_nil_of_mem h')
      · exact List.length_pos.mpr (List.ne_nil_of_mem h)
    simp only [List.length_cons]
    omega

/-! ### Sign and sum lemmas for the working set -/

theorem not_done_iff (t : TmpSummary) : (!t.done) = true ↔ t.total ≠ 0 := by
  simp [TmpSummary.done]

theorem posSum_nonneg (l : List TmpSummary) : 0 ≤ posSum l := by
  refine List.sum_nonneg ?_
  intro x hx
  obtain ⟨t, _, rfl⟩ := List.mem_map.mp hx
  exact le_max_right _ _

theorem negSum_nonneg (l : List TmpSummary) : 0 ≤ negSum l := by
  refine List.sum_nonneg ?_
  intro x hx
  obtain ⟨t, _, rfl⟩ := List.mem_map.mp hx
  exact le_max_right _ _

theorem posSum_eq_zero_of_nonpos {l : List TmpSummary}
    (h : ∀ t ∈ l, t.total ≤ 0) : posSum l = 0 := by
  refine List.sum_eq_zero ?_
  intro x hx
  obtain ⟨t, ht, rfl⟩ := List.mem_map.mp hx
  exact max_eq_right (h t ht)

theorem negSum_eq_zero_of_nonneg {l : List TmpSummary}
    (h : ∀ t ∈ l, 0 ≤ t.total) : negSum l = 0 := by
  refine List.sum_eq_zero ?_
  intro x hx
  obtain ⟨t, ht, rfl⟩ := List.mem_map.mp hx
  have := h t ht
  exact max_eq_right (by omega : -t.total ≤ 0)

theorem exists_pos_of_posSum_pos {l : List TmpSummary} (h : 0 < posSum l) :
    ∃ t ∈ l, 0 < t.total := by
  by_contra hc
  push_neg at hc
  rw [posSum_eq_zero_of_nonpos hc] at h
  exact lt_irrefl 0 h

theorem exists_neg_of_negSum_pos {l : List TmpSummary} (h : 0 < negSum l) :
    ∃ t ∈ l, t.total < 0 := by
  by_contra hc
  push_neg at hc
  rw [negSum_eq_zero_of_nonneg hc] at h
  exact lt_irrefl 0 h

theorem member_le_posSum {l : List TmpSummary} {t : TmpSummary} (ht : t ∈ l) :
    max t.total 0 ≤ posSum l := by
  refine List.single_le_sum ?_ _ (List.mem_map_of_mem _ ht)
  intro x hx
  obtain ⟨s, _, rfl⟩ := List.mem_map.mp hx
  exact le_max_right _ _

theorem member_le_negSum {l : List TmpSummary} {t : TmpSummary} (ht : t ∈ l) :
    max (-t.total) 0 ≤ negSum l := by
  refine List.single_le_sum ?_ _ (List.mem_map_of_mem _ ht)
  intro x hx
  obtain ⟨s, _, rfl⟩ := List.mem_map.mp hx
  exact le_max_right _ _

theorem sumTotals_eq_posSum_sub_negSum (l : List TmpSummary) :
    sumTotals l = posSum l - negSum l := by
  induction l with
  | nil => simp [sumTotals, posSum, negSum]
  | cons t ts ih =>
    simp only [sumTotals, posSum, negSum, List.map_cons, List.sum_cons] at ih ⊢
    have h : t.total = max t.total 0 - max (-t.total) 0 := by
      rcases le_or_lt t.total 0 with h | h
      · rw [max_eq_right h, max_eq_left (by omega)]
        omega
      · rw [max_eq_left (le_of_lt h), max_eq_right (by omega)]
        omega
    omega

theorem posTotalSum_eq_posSum (l : List TmpSummary) : posTotalSum l = posSum l := by
  induction l with
  | nil => simp [posTotalSum, posSum, sumTotals]
  | cons t ts ih =>
    simp only [posTotalSum, posSum, sumTotals, List.filter_cons] at ih ⊢
    by_cases h : 0 < t.total
    · rw [if_pos (by simpa using h)]
      simp only [List.map_cons, List.sum_cons]
      rw [max_eq_left (le_of_lt h)]
      omega
    · rw [if_neg (by simpa using h)]
      simp only [List.map_cons, List.sum_cons]
      rw [max_eq_right (by omega : t.total ≤ 0)]
      omega

theorem negAbsSum_eq_negSum (l : List TmpSummary) : negAbsSum l = negSum l := by
  induction l with
  | nil => simp [negAbsSum, negSum]
  | cons t ts ih =>
    simp only [negAbsSum, negSum, List.filter_cons] at ih ⊢
    by_cases h : t.total < 0
    · rw [if_pos (by simpa using h)]
      simp only [List.map_cons, List.sum_cons]
      rw [max_eq_left (by omega : 0 ≤ -t.total)]
      omega
    · rw [if_neg (by simpa using h)]
      simp only [List.map_cons, List.sum_cons]
      rw [max_eq_right (by omega : -t.total ≤ 0)]
      omega

/-! ### Characterization of resolve -/

theorem resolve_pos_neg (a b : TmpSummary) (ha : 0 < a.total) (hb : b.total < 0) :
    ∃ ex a' b', TmpSummary.resolve a b = (Except.ok ex, a', b') ∧
      a'.user = a.user ∧ b'.user = b.user ∧
      a'.total = max (a.total + b.total) 0 ∧
      b'.total = min (a.total + b.total) 0 ∧
      ex.price = min a.total (-b.total) := by
  have hguard : ¬ (a.total * b.total ≥ 0) :=
    not_le.mpr (mul_neg_of_pos_of_neg ha hb)
  unfold TmpSummary.resolve
  rw [if_neg hguard]
  by_cases h0 : a.total + b.total = 0
  · rw [if_pos h0]
    refine ⟨_, _, _, rfl, rfl, rfl, ?_, ?_, ?_⟩
    · simp [h0]
    · simp [h0]
    · have hba : -b.total = a.total := by omega
      simp only [abs_of_pos ha, hba, min_self]
  · rw [if_neg h0]
    by_cases h1 : |a.total| < |b.total|
    · rw [if_pos h1]
      rw [abs_of_pos ha, abs_of_neg hb] at h1
      refine ⟨_, _, _, rfl, rfl, rfl, ?_, ?_, ?_⟩
      · simp only
        rw [max_eq_right (by omega : a.total + b.total ≤ 0)]
      · simp only
        rw [min_eq_left (by omega : a.total + b.total ≤ 0)]
      · simp only
        rw [abs_of_pos ha, min_eq_left (by omega : a.total ≤ -b.total)]
    · rw [if_neg h1]
      rw [not_lt, abs_of_pos ha, abs_of_neg hb] at h1
      refine ⟨_, _, _, rfl, rfl, rfl, ?_, ?_, ?_⟩
      · simp only
        rw [max_eq_left (by omega : 0 ≤ a.total + b.total)]
      · simp only
        rw [min_eq_right (by omega : 0 ≤ a.total + b.total)]
      · simp only
        rw [abs_of_neg hb, min_eq_right (by omega : -b.total ≤ a.total)]

theorem resolve_ok_total_sum (a b : TmpSummary) (ex : Exchange) (a' b' : TmpSummary)
    (h : TmpSummary.resolve a b = (Except.ok ex, a', b')) :
    a'.total + b'.total = a.total + b.total := by
  unfold TmpSummary.resolve at h
  by_cases h0 : a.total * b.total ≥ 0
  · rw [if_pos h0] at h
    simp at h
  · rw [if_neg h0] at h
    by_cases h1 : a.total + b.total = 0
    · rw [if_pos h1] at h
      simp only [Prod.mk.injEq, Except.ok.injEq] at h
      obtain ⟨-, ha', hb'⟩ := h
      rw [← ha', ← hb']
      simp only
      omega
    · rw [if_neg h1] at h
      by_cases h2 : |a.total| < |b.total|
      · rw [if_pos h2] at h
        simp only [Prod.mk.injEq, Except.ok.injEq] at h
        obtain ⟨-, ha', hb'⟩ := h
        rw [← ha', ← hb']
        simp only
        omega
      · rw [if_neg h2] at h
        simp only [Prod.mk.injEq, Except.ok.injEq] at h
        obtain ⟨-, ha', hb'⟩ := h
        rw [← ha', ← hb']
        simp only
        omega

/-! ### Unfolding equations for the settlement loop -/

theorem exchnangeGo_stop_lt2 (fuel : Nat) (tmps : List TmpSummary) (acc : List Exchange)
    (h : (unsettledOf tmps).length < 2) :
    exchnangeGo fuel tmps acc = some (RunResult.ok tmps acc) := by
  rw [exchnangeGo, if_pos h]

theorem exchnangeGo_stop_nopos (fuel : Nat) (tmps : List TmpSummary) (acc : List Exchange)
    (hlt : ¬ (unsettledOf tmps).length < 2)
    (hfp : (unsettledOf tmps).find? (fun t => decide (0 < t.total)) = none) :
    exchnangeGo fuel tmps acc = some (RunResult.ok tmps acc) := by
  rw [exchnangeGo, if_neg hlt, hfp]

theorem exchnangeGo_stop_noneg (fuel : Nat) (tmps : List TmpSummary) (acc : List Exchange)
    (hlt : ¬ (unsettledOf tmps).length < 2)
    (hfn : (unsettledOf tmps).find? (fun t => decide (t.total < 0)) = none) :
    exchnangeGo fuel tmps acc = some (RunResult.ok tmps acc) := by
  rw [exchnangeGo, if_neg hlt, hfn]
  rcases hx : (unsettledOf tmps).find? (fun t => decide (0 < t.total)) with _ | pos <;>
    rw [hx]

theorem exchnangeGo_step (fuel : Nat) (tmps : List TmpSummary) (acc : List Exchange)
    (hlt : ¬ (unsettledOf tmps).length < 2)
    (pos neg : TmpSummary)
    (hfp : (unsettledOf tmps).find? (fun t => decide (0 < t.total)) = some pos)
    (hfn : (unsettledOf tmps).find? (fun t => decide (t.total < 0)) = some neg)
    (ex : Exchange) (pos' neg' : TmpSummary)
    (hres : TmpSummary.resolve pos neg = (Except.ok ex, pos', neg')) :
    exchnangeGo (fuel + 1) tmps acc =
      exchnangeGo fuel
        ((tmps.set (tmps.findIdx (fun t => decide (0 < t.total))) pos').set
          (tmps.findIdx (fun t => decide (t.total < 0))) neg')
        (acc ++ [ex]) := by
  conv_lhs => rw [exchnangeGo]
  rw [if_neg hlt, hfp, hfn]
  dsimp only
  rw [hres]

theorem find?_unsettledOf (l : List TmpSummary) (p : TmpSummary → Bool)
    (him : ∀ t, p t = true → (!t.done) = true) :
    (unsettledOf l).find? p = l.find? p :=
  find?_filter_of_imp l p (fun t => !t.done) him

/-! ### Stopping states have no opposite-sign pair left -/

theorem stop_min_eq_zero (l : List TmpSummary)
    (h : (unsettledOf l).length < 2 ∨
         (unsettledOf l).find? (fun t => decide (0 < t.total)) = none ∨
         (unsettledOf l).find? (fun t => decide (t.total < 0)) = none) :
    min (posSum l) (negSum l) = 0 := by
  by_contra hmin
  have hp0 := posSum_nonneg l
  have hn0 := negSum_nonneg l
  have hboth : 0 < posSum l ∧ 0 < negSum l := by
    rcases min_cases (posSum l) (negSum l) with ⟨he, hle⟩ | ⟨he, hle⟩ <;>
      constructor <;> omega
  obtain ⟨t, htl, htpos⟩ := exists_pos_of_posSum_pos hboth.1
  obtain ⟨u, hul, huneg⟩ := exists_neg_of_negSum_pos hboth.2
  have htu : t ∈ unsettledOf l := by
    refine List.mem_filter.mpr ⟨htl, ?_⟩
    rw [not_done_iff]
    omega
  have huu : u ∈ unsettledOf l := by
    refine List.mem_filter.mpr ⟨hul, ?_⟩
    rw [not_done_iff]
    omega
  have hne : t ≠ u := by
    intro he
    rw [he] at htpos
    omega
  rcases h with h | h | h
  · exact absurd (two_le_length_of_mem_ne htu huu hne) (by omega)
  · rw [List.find?_eq_none] at h
    exact (h t htu) (by simpa using htpos)
  · rw [List.find?_eq_none] at h
    exact (h u huu) (by simpa using huneg)

/-! ### Effect of one resolution step on the working set -/

theorem settle_step_facts (tmps : List TmpSummary) (i j : Nat)
    (pos neg pos' neg' : TmpSummary)
    (hi : i < tmps.length) (hj : j < tmps.length) (hij : i ≠ j)
    (hgi : tmps[i] = pos) (hgj : tmps[j] = neg)
    (hpt : 0 < pos.total) (hnt : neg.total < 0)
    (hpt' : pos'.total = max (pos.total + neg.total) 0)
    (hnt' : neg'.total = min (pos.total + neg.total) 0)
    (h2 : 2 ≤ (unsettledOf tmps).length) :
    (unsettledOf ((tmps.set i pos').set j neg')).length < (unsettledOf tmps).length ∧
    sumTotals ((tmps.set i pos').set j neg') = sumTotals tmps ∧
    posSum ((tmps.set i pos').set j neg') + min pos.total (-neg.total) = posSum tmps ∧
    negSum ((tmps.set i pos').set j neg') + min pos.total (-neg.total) = negSum tmps ∧
    ((tmps.set i pos').set j neg').length = tmps.length := by
  have hj' : j < (tmps.set i pos').length := by simpa using hj
  have hset_j : (tmps.set i pos')[j] = tmps[j] := List.getElem_set_ne hij hj'
  have hget_i : tmps.get ⟨i, hi⟩ = pos := by rw [List.get_eq_getElem, hgi]
  have hget_j : tmps.get ⟨j, hj⟩ = neg := by rw [List.get_eq_getElem, hgj]
  have hsplit : min pos.total (-neg.total)
      = pos.total - max (pos.total + neg.total) 0 := by
    rcases le_or_lt 0 (pos.total + neg.total) with hs | hs
    · rw [max_eq_left hs, min_eq_right (by omega : -neg.total ≤ pos.total)]
      omega
    · rw [max_eq_right (le_of_lt hs), min_eq_left (by omega : pos.total ≤ -neg.total)]
      omega
  refine ⟨?_, ?_, ?_, ?_, ?_⟩
  · -- unsettled count strictly decreases
    have hc1 := List.countP_set (fun t => !t.done) tmps i pos' hi
    have hc2 := List.countP_set (fun t => !t.done) (tmps.set i pos') j neg' hj'
    rw [hset_j, hgj] at hc2
    rw [hgi] at hc1
    have hcount : ∀ l : List TmpSummary,
        (unsettledOf l).length = l.countP (fun t => !t.done) := fun l =>
      (List.countP_eq_length_filter _ _).symm
    have hqpos : (!pos.done) = true := by
      rw [not_done_iff]
      omega
    have hqneg : (!neg.done) = true := by
      rw [not_done_iff]
      omega
    have hw0 : ((!pos'.done) = false) ∨ ((!neg'.done) = false) := by
      rcases le_or_lt (pos.total + neg.total) 0 with hs | hs
      · left
        have hz : pos'.total = 0 := by rw [hpt']; exact max_eq_right hs
        simp [TmpSummary.done, hz]
      · right
        have hz : neg'.total = 0 := by rw [hnt']; exact min_eq_right (le_of_lt hs)
        simp [TmpSummary.done, hz]
    rw [hcount tmps, hcount ((tmps.set i pos').set j neg')]
    rw [hcount tmps] at h2
    by_cases hbp : (!pos'.done) = true <;> by_cases hbn : (!neg'.done) = true
    · rcases hw0 with hw | hw
      · rw [hw] at hbp
        exact absurd hbp (by simp)
      · rw [hw] at hbn
        exact absurd hbn (by simp)
    · rw [Bool.not_eq_true] at hbn
      simp only [hqpos, hqneg, hbp, hbn] at hc1 hc2
      simp at hc1 hc2
      omega
    · rw [Bool.not_eq_true] at hbp
      simp only [hqpos, hqneg, hbp, hbn] at hc1 hc2
      simp at hc1 hc2
      omega
    · rw [Bool.not_eq_true] at hbp hbn
      simp only [hqpos, hqneg, hbp, hbn] at hc1 hc2
      simp at hc1 hc2
      omega
  · -- total sum is preserved
    have hs := sum_map_set2 (fun t => t.total) tmps i j pos' neg' hi hj hij
    rw [hget_i, hget_j] at hs
    have hmm := max_add_min (pos.total + neg.total) 0
    simp only [sumTotals]
    simp only at hs
    omega
  · -- positive mass decreases by exactly the price
    have hs := sum_map_set2 (fun t => max t.total 0) tmps i j pos' neg' hi hj hij
    rw [hget_i, hget_j] at hs
    simp only at hs
    rw [max_eq_left (le_of_lt hpt), max_eq_right (le_of_lt hnt), hpt', hnt'] at hs
    rw [max_eq_left (le_max_right _ _), max_eq_right (min_le_right _ _)] at hs
    simp only [posSum]
    omega
  · -- negative mass decreases by exactly the price
    have hs := sum_map_set2 (fun t => max (-t.total) 0) tmps i j pos' neg' hi hj hij
    rw [hget_i, hget_j] at hs
    simp only at hs
    rw [max_eq_right (by omega : -pos.total ≤ 0),
      max_eq_left (by omega : (0:Int) ≤ -neg.total), hpt', hnt'] at hs
    rw [max_eq_right (by simp : -max (pos.total + neg.total) 0 ≤ 0),
      max_eq_left (by simp : (0:Int) ≤ -min (pos.total + neg.total) 0)] at hs
    have hmm := max_add_min (pos.total + neg.total) 0
    simp only [negSum]
    omega
  · simp

/-! ### Main invariant of the settlement loop -/

theorem go_stop_package (fuel : Nat) (tmps : List TmpSummary) (acc : List Exchange)
    (heq : exchnangeGo fuel tmps acc = some (RunResult.ok tmps acc))
    (hmin : min (posSum tmps) (negSum tmps) = 0) :
    ∃ final exs,
      exchnangeGo fuel tmps acc = some (RunResult.ok final (acc ++ exs)) ∧
      (∀ e ∈ exs, 0 < e.price) ∧
      exs.length ≤ (unsettledOf tmps).length - 1 ∧
      sumTotals final = sumTotals tmps ∧
      posSum final + priceSum exs = posSum tmps ∧
      negSum final + priceSum exs = negSum tmps ∧
      min (posSum final) (negSum final) = 0 ∧
      final.length = tmps.length := by
  refine ⟨tmps, [], ?_, ?_, ?_, rfl, ?_, ?_, hmin, rfl⟩
  · rw [heq]
    simp
  · simp
  · simp
  · simp [priceSum]
  · simp [priceSum]

theorem exchnangeGo_spec (fuel : Nat) :
    ∀ (tmps : List TmpSummary) (acc : List Exchange),
      (unsettledOf tmps).length ≤ fuel →
      ∃ final exs,
        exchnangeGo fuel tmps acc = some (RunResult.ok final (acc ++ exs)) ∧
        (∀ e ∈ exs, 0 < e.price) ∧
        exs.length ≤ (unsettledOf tmps).length - 1 ∧
        sumTotals final = sumTotals tmps ∧
        posSum final + priceSum exs = posSum tmps ∧
        negSum final + priceSum exs = negSum tmps ∧
        min (posSum final) (negSum final) = 0 ∧
        final.length = tmps.length := by
  induction fuel with
  | zero =>
    intro tmps acc hfuel
    have hlt : (unsettledOf tmps).length < 2 := by omega
    exact go_stop_package 0 tmps acc (exchnangeGo_stop_lt2 0 tmps acc hlt)
      (stop_min_eq_zero tmps (Or.inl hlt))
  | succ fuel ih =>
    intro tmps acc hfuel
    by_cases hlt : (unsettledOf tmps).length < 2
    · exact go_stop_package _ tmps acc (exchnangeGo_stop_lt2 _ tmps acc hlt)
        (stop_min_eq_zero tmps (Or.inl hlt))
    · rcases hfp : (unsettledOf tmps).find? (fun t => decide (0 < t.total)) with _ | pos
      · exact go_stop_package _ tmps acc (exchnangeGo_stop_nopos _ tmps acc hlt hfp)
          (stop_min_eq_zero tmps (Or.inr (Or.inl hfp)))
      · rcases hfn : (unsettledOf tmps).find? (fun t => decide (t.total < 0)) with _ | neg
        · exact go_stop_package _ tmps acc (exchnangeGo_stop_noneg _ tmps acc hlt hfn)
            (stop_min_eq_zero tmps (Or.inr (Or.inr hfn)))
        · have hpos_t : 0 < pos.total := by simpa using List.find?_some hfp
          have hneg_t : neg.total < 0 := by simpa using List.find?_some hfn
          have himp : ∀ t : TmpSummary, decide (0 < t.total) = true → (!t.done) = true := by
            intro t ht
            rw [not_done_iff]
            simp at ht
            omega
          have himn : ∀ t : TmpSummary, decide (t.total < 0) = true → (!t.done) = true := by
            intro t ht
            rw [not_done_iff]
            simp at ht
            omega
          have hfp' : tmps.find? (fun t => decide (0 < t.total)) = some pos := by
            rw [← find?_unsettledOf tmps _ himp]
            exact hfp
          have hfn' : tmps.find? (fun t => decide (t.total < 0)) = some neg := by
            rw [← find?_unsettledOf tmps _ himn]
            exact hfn
          obtain ⟨hi, hgi?⟩ := find?_to_getElem _ tmps pos hfp'
          obtain ⟨hj, hgj?⟩ := find?_to_getElem _ tmps neg hfn'
          have hij : tmps.findIdx (fun t => decide (0 < t.total)) ≠
              tmps.findIdx (fun t => decide (t.total < 0)) := by
            intro he
            rw [he] at hgi?
            rw [hgi?] at hgj?
            have hpn : pos = neg := by injection hgj?
            rw [hpn] at hpos_t
            omega
          rw [List.getElem?_eq_getElem hi] at hgi?
          rw [List.getElem?_eq_getElem hj] at hgj?
          have hgi : tmps[tmps.findIdx (fun t => decide (0 < t.total))] = pos := by
            injection hgi?
          have hgj : tmps[tmps.findIdx (fun t => decide (t.total < 0))] = neg := by
            injection hgj?
          obtain ⟨ex, pos', neg', hres, hu1, hu2, hpt', hnt', hprice⟩ :=
            resolve_pos_neg pos neg hpos_t hneg_t
          obtain ⟨hcount, hsum, hpos_s, hneg_s, hlen⟩ :=
            settle_step_facts tmps _ _ pos neg pos' neg' hi hj hij hgi hgj
              hpos_t hneg_t hpt' hnt' (by omega)
          rw [exchnangeGo_step fuel tmps acc hlt pos neg hfp hfn ex pos' neg' hres]
          have hfuel' :
              (unsettledOf ((tmps.set (tmps.findIdx (fun t => decide (0 < t.total))) pos').set
                (tmps.findIdx (fun t => decide (t.total < 0))) neg')).length ≤ fuel := by
            omega
          obtain ⟨final, exs', hrun, hpr, hlen', hsumf, hposf, hnegf, hminf, hlenf⟩ :=
            ih _ (acc ++ [ex]) hfuel'
          refine ⟨final, ex :: exs', ?_, ?_, ?_, ?_, ?_, ?_, hminf, ?_⟩
          · rw [hrun]
            simp
          · intro e he
            rcases List.mem_cons.mp he with he | he
            · rw [he, hprice]
              exact lt_min hpos_t (by omega)
            · exact hpr e he
          · simp only [List.length_cons]
            omega
          · rw [hsumf, hsum]
          · have hps : priceSum (ex :: exs') = ex.price + priceSum exs' := by
              simp [priceSum]
            rw [hps, hprice]
            rw [hprice] at *
            omega
          · have hps : priceSum (ex :: exs') = ex.price + priceSum exs' := by
              simp [priceSum]
            rw [hps, hprice]
            omega
          · rw [hlenf, hlen]

/-! ### Further helper lemmas -/

theorem resolve_neg_pos (a b : TmpSummary) (ha : a.total < 0) (hb : 0 < b.total) :
    ∃ ex a' b', TmpSummary.resolve a b = (Except.ok ex, a', b') ∧
      a'.user = a.user ∧ b'.user = b.user ∧
      a'.total = min (a.total + b.total) 0 ∧
      b'.total = max (a.total + b.total) 0 ∧
      ex.price = min (-a.total) b.total := by
  have hguard : ¬ (a.total * b.total ≥ 0) :=
    not_le.mpr (mul_neg_of_neg_of_pos ha hb)
  unfold TmpSummary.resolve
  rw [if_neg hguard]
  by_cases h0 : a.total + b.total = 0
  · rw [if_pos h0]
    refine ⟨_, _, _, rfl, rfl, rfl, ?_, ?_, ?_⟩
    · simp [h0]
    · simp [h0]
    · have hba : b.total = -a.total := by omega
      simp only [abs_of_neg ha, hba, min_self]
  · rw [if_neg h0]
    by_cases h1 : |a.total| < |b.total|
    · rw [if_pos h1]
      rw [abs_of_neg ha, abs_of_pos hb] at h1
      refine ⟨_, _, _, rfl, rfl, rfl, ?_, ?_, ?_⟩
      · simp only
        rw [min_eq_right (by omega : (0:Int) ≤ a.total + b.total)]
      · simp only
        rw [max_eq_left (by omega : (0:Int) ≤ a.total + b.total)]
      · simp only
        rw [abs_of_neg ha, min_eq_left (by omega : -a.total ≤ b.total)]
    · rw [if_neg h1]
      rw [not_lt, abs_of_neg ha, abs_of_pos hb] at h1
      refine ⟨_, _, _, rfl, rfl, rfl, ?_, ?_, ?_⟩
      · simp only
        rw [min_eq_left (by omega : a.total + b.total ≤ 0)]
      · simp only
        rw [max_eq_right (by omega : a.total + b.total ≤ 0)]
      · simp only
        rw [abs_of_pos hb, min_eq_right (by omega : b.total ≤ -a.total)]

theorem bigger_user (x y : TmpSummary) :
    (bigger x y).user = if y.total ≤ x.total then x.user else y.user := by
  unfold bigger
  rcases le_or_lt y.total x.total with h | h
  · rw [if_pos (show x.total ≥ y.total from h), if_pos h]
  · rw [if_neg (show ¬ x.total ≥ y.total from not_le.mpr h), if_neg (not_le.mpr h)]

theorem smaller_user (x y : TmpSummary) :
    (smaller x y).user = if x.total ≤ y.total then x.user else y.user := by
  unfold smaller
  rcases le_or_lt x.total y.total with h | h
  · rw [if_pos h, if_pos h]
  · rw [if_neg (not_le.mpr h), if_neg (not_le.mpr h)]

theorem sum_map_const {α : Type} (l : List α) (c : Int) :
    (l.map (fun _ => c)).sum = l.length * c := by
  induction l with
  | nil => simp
  | cons a t ih =>
    simp only [List.map_cons, List.sum_cons, List.length_cons, ih]
    push_cast
    ring

theorem exchnangeTmps_ok (tmps : List TmpSummary) :
    ∃ final exs, exchnangeTmps tmps = some (RunResult.ok final exs) := by
  obtain ⟨final, exs, hrun, -⟩ :=
    exchnangeGo_spec tmps.length tmps [] (List.length_filter_le _ _)
  exact ⟨final, exs, by simpa using hrun⟩

theorem run_facts (tmps final : List TmpSummary) (exs : List Exchange)
    (hrun : exchnangeTmps tmps = some (RunResult.ok final exs)) :
    (∀ e ∈ exs, 0 < e.price) ∧
    exs.length ≤ (unsettledOf tmps).length - 1 ∧
    sumTotals final = sumTotals tmps ∧
    posSum final + priceSum exs = posSum tmps ∧
    negSum final + priceSum exs = negSum tmps ∧
    min (posSum final) (negSum final) = 0 ∧
    final.length = tmps.length := by
  obtain ⟨f', x', hrun', h2, h3, h4, h5, h6, h7, h8⟩ :=
    exchnangeGo_spec tmps.length tmps [] (List.length_filter_le _ _)
  unfold exchnangeTmps at hrun
  rw [hrun] at hrun'
  simp only [List.nil_append, Option.some.injEq, RunResult.ok.injEq] at hrun'
  obtain ⟨hf, hx⟩ := hrun'
  subst hf
  subst hx
  exact ⟨h2, h3, h4, h5, h6, h7, h8⟩

theorem sumTotals_eq_zero_of_unsettled_nil {l : List TmpSummary}
    (h : unsettledOf l = []) : sumTotals l = 0 := by
  have hall : ∀ t ∈ l, t.total = 0 := by
    intro t ht
    have := List.filter_eq_nil.mp h t ht
    rw [not_done_iff] at this
    omega
  refine List.sum_eq_zero ?_
  intro x hx
  obtain ⟨t, ht, rfl⟩ := List.mem_map.mp hx
  exact hall t ht

/-! ### Claim theorems -/

/-- C3: for every pair of `TmpSummary` values whose totals have product `≥ 0`
(same sign, or at least one zero), `resolve` fails with the `"invalid resolve"`
error and returns both operands unchanged (no mutation happens before the
failure). -/
theorem resolve_invalid_error (a b : TmpSummary) (h : a.total * b.total ≥ 0) :
    TmpSummary.resolve a b = (Except.error "invalid resolve", a, b) := by
  unfold TmpSummary.resolve
  rw [if_pos h]

/-- Witness for C3 at the concrete same-sign pair `(+5, +3)`. -/
theorem resolve_invalid_error_witness :
    TmpSummary.resolve ⟨userA, 5⟩ ⟨userB, 3⟩
      = (Except.error "invalid resolve", ⟨userA, 5⟩, ⟨userB, 3⟩) :=
  resolve_invalid_error ⟨userA, 5⟩ ⟨userB, 3⟩ (by decide)

/-- C2: for strictly opposite-sign operands `resolve` succeeds, afterwards at
least one total is `0`, the returned price is `overlap = min(|a|, |b|)`, and
`|a'| + |b'| + 2*overlap = |a| + |b|`. -/
theorem resolve_opposite_signs (a b : TmpSummary) (h : a.total * b.total < 0) :
    ∃ ex a' b', TmpSummary.resolve a b = (Except.ok ex, a', b') ∧
      (a'.total = 0 ∨ b'.total = 0) ∧
      ex.price = min |a.total| |b.total| ∧
      |a'.total| + |b'.total| + 2 * min |a.total| |b.total| = |a.total| + |b.total| := by
  rcases mul_neg_iff.mp h with ⟨ha, hb⟩ | ⟨ha, hb⟩
  · obtain ⟨ex, a', b', hres, -, -, hpt', hnt', hprice⟩ := resolve_pos_neg a b ha hb
    refine ⟨ex, a', b', hres, ?_, ?_, ?_⟩
    · rcases le_or_lt (a.total + b.total) 0 with hs | hs
      · left
        rw [hpt']
        exact max_eq_right hs
      · right
        rw [hnt']
        exact min_eq_right (le_of_lt hs)
    · rw [hprice, abs_of_pos ha, abs_of_neg hb]
    · rw [hpt', hnt', abs_of_nonneg (le_max_right _ _), abs_of_nonpos (min_le_right _ _),
        abs_of_pos ha, abs_of_neg hb]
      rcases le_or_lt 0 (a.total + b.total) with hs | hs
      · rw [max_eq_left hs, min_eq_right hs,
          min_eq_right (by omega : -b.total ≤ a.total)]
        omega
      · rw [max_eq_right (le_of_lt hs), min_eq_left (le_of_lt hs),
          min_eq_left (by omega : a.total ≤ -b.total)]
        omega
  · obtain ⟨ex, a', b', hres, -, -, hpt', hnt', hprice⟩ := resolve_neg_pos a b ha hb
    refine ⟨ex, a', b', hres, ?_, ?_, ?_⟩
    · rcases le_or_lt (a.total + b.total) 0 with hs | hs
      · right
        rw [hnt']
        exact max_eq_right hs
      · left
        rw [hpt']
        exact min_eq_right (le_of_lt hs)
    · rw [hprice, abs_of_neg ha, abs_of_pos hb]
    · rw [hpt', hnt', abs_of_nonpos (min_le_right _ _), abs_of_nonneg (le_max_right _ _),
        abs_of_neg ha, abs_of_pos hb]
      rcases le_or_lt 0 (a.total + b.total) with hs | hs
      · rw [max_eq_left hs, min_eq_right hs,
          min_eq_left (by omega : -a.total ≤ b.total)]
        omega
      · rw [max_eq_right (le_of_lt hs), min_eq_left (le_of_lt hs),
          min_eq_right (by omega : b.total ≤ -a.total)]
        omega

/-- Witness for C2 at the concrete opposite-sign pair `(+5, -3)`. -/
theorem resolve_opposite_signs_witness :
    ∃ ex a' b', TmpSummary.resolve ⟨userA, 5⟩ ⟨userB, -3⟩ = (Except.ok ex, a', b') ∧
      (a'.total = 0 ∨ b'.total = 0) ∧
      ex.price = min |(5:Int)| |(-3:Int)| ∧
      |a'.total| + |b'.total| + 2 * min |(5:Int)| |(-3:Int)| = |(5:Int)| + |(-3:Int)| :=
  resolve_opposite_signs ⟨userA, 5⟩ ⟨userB, -3⟩ (by decide)

/-- C10: every successful `resolve` call preserves the sum of its two operand
totals, and consequently a whole settlement run preserves the sum of all
totals of the working set. -/
theorem resolve_exchnange_preserve_sum :
    (∀ (a b : TmpSummary) (ex : Exchange) (a' b' : TmpSummary),
        TmpSummary.resolve a b = (Except.ok ex, a', b') →
        a'.total + b'.total = a.total + b.total) ∧
    (∀ (tmps final : List TmpSummary) (exs : List Exchange),
        exchnangeTmps tmps = some (RunResult.ok final exs) →
        sumTotals final = sumTotals tmps) := by
  constructor
  · exact resolve_ok_total_sum
  · intro tmps final exs hrun
    exact (run_facts tmps final exs hrun).2.2.1

/-- Witness for C10: a concrete resolve call and a concrete full run, both
preserving the total sum. -/
theorem resolve_exchnange_preserve_sum_witness :
    ((⟨userA, 2⟩ : TmpSummary).total + (⟨userB, 0⟩ : TmpSummary).total
      = (⟨userA, 5⟩ : TmpSummary).total + (⟨userB, -3⟩ : TmpSummary).total) ∧
    sumTotals [⟨userX, 1⟩, ⟨userY, 0⟩, ⟨userZ, 0⟩] = sumTotals tmpsResidual :=
  ⟨resolve_exchnange_preserve_sum.1 ⟨userA, 5⟩ ⟨userB, -3⟩
      ⟨3, userA, userB⟩ ⟨userA, 2⟩ ⟨userB, 0⟩ rfl,
   resolve_exchnange_preserve_sum.2 tmpsResidual [⟨userX, 1⟩, ⟨userY, 0⟩, ⟨userZ, 0⟩]
      [⟨33, userX, userY⟩, ⟨33, userX, userZ⟩] (by decide)⟩

/-- C4: on any list of balances the settlement loop terminates (within
`length` iterations of fuel), emits at most `n - 1` exchanges, and every
emitted exchange has a strictly positive price. -/
theorem exchnange_terminates (tmps : List TmpSummary) :
    ∃ final exs,
      exchnangeTmps tmps = some (RunResult.ok final exs) ∧
      exs.length ≤ tmps.length - 1 ∧
      ∀ e ∈ exs, 0 < e.price := by
  obtain ⟨final, exs, hrun⟩ := exchnangeTmps_ok tmps
  obtain ⟨hpr, hlen, -⟩ := run_facts tmps final exs hrun
  refine ⟨final, exs, hrun, ?_, hpr⟩
  have hfl : (unsettledOf tmps).length ≤ tmps.length := List.length_filter_le _ _
  omega

/-- C5: the sum of all emitted exchange prices equals the minimum of the sum
of strictly positive input totals and the sum of absolute values of strictly
negative input totals. -/
theorem exchnange_priceSum (tmps : List TmpSummary) :
    ∃ final exs,
      exchnangeTmps tmps = some (RunResult.ok final exs) ∧
      priceSum exs = min (posTotalSum tmps) (negAbsSum tmps) := by
  obtain ⟨final, exs, hrun⟩ := exchnangeTmps_ok tmps
  obtain ⟨-, -, -, hpos, hneg, hmin, -⟩ := run_facts tmps final exs hrun
  refine ⟨final, exs, hrun, ?_⟩
  rw [posTotalSum_eq_posSum, negAbsSum_eq_negSum, ← hpos, ← hneg]
  rw [min_add_add_right, hmin, zero_add]

/-- C8: with at least one payee, every payee's debt is the floor share
`price // n`, the debts sum to `(price // n) * n ≤ price` with equality
exactly when `n` divides `price`, and the payer's asset is the full price. -/
theorem payment_split_rounding (p : Payment) (hn : 1 ≤ p.payees.length) :
    (∀ u, (p.debt u).price = p.price.fdiv p.payees.length) ∧
    ((p.payees.map (fun u => (p.debt u).price)).sum
      = p.price.fdiv p.payees.length * p.payees.length) ∧
    ((p.payees.map (fun u => (p.debt u).price)).sum ≤ p.price) ∧
    (((p.payees.map (fun u => (p.debt u).price)).sum = p.price) ↔
      p.price.fmod p.payees.length = 0) ∧
    (∀ u, (p.asset u).price = p.price) := by
  have hn' : (0:Int) < (p.payees.length : Int) := by exact_mod_cast hn
  have hfd : p.price.fdiv (p.payees.length : Int) = p.price / (p.payees.length : Int) :=
    Int.fdiv_eq_ediv _ (le_of_lt hn')
  have hfm : p.price.fmod (p.payees.length : Int) = p.price % (p.payees.length : Int) :=
    Int.fmod_eq_emod _ (le_of_lt hn')
  have hsum : (p.payees.map (fun u => (p.debt u).price)).sum
      = p.price.fdiv (p.payees.length : Int) * (p.payees.length : Int) := by
    have hc : (p.payees.map (fun u => (p.debt u).price))
        = p.payees.map (fun _ => p.price.fdiv (p.payees.length : Int)) := by
      simp [Payment.debt]
    rw [hc, sum_map_const]
    ring
  have hdm := Int.ediv_add_emod p.price (p.payees.length : Int)
  have hr0 : 0 ≤ p.price % (p.payees.length : Int) := Int.emod_nonneg _ (by omega)
  refine ⟨fun u => rfl, hsum, ?_, ?_, fun u => rfl⟩
  · rw [hsum, hfd, mul_comm]
    linarith
  · rw [hsum, hfd, hfm, mul_comm]
    constructor
    · intro h
      linarith
    · intro h
      linarith

/-- Witness for C8 at the concrete payment of 100 split three ways. -/
theorem payment_split_rounding_witness :
    (∀ u, (payment0.debt u).price = payment0.price.fdiv payment0.payees.length) ∧
    ((payment0.payees.map (fun u => (payment0.debt u).price)).sum
      = payment0.price.fdiv payment0.payees.length * payment0.payees.length) ∧
    ((payment0.payees.map (fun u => (payment0.debt u).price)).sum ≤ payment0.price) ∧
    (((payment0.payees.map (fun u => (payment0.debt u).price)).sum = payment0.price) ↔
      payment0.price.fmod payment0.payees.length = 0) ∧
    (∀ u, (payment0.asset u).price = payment0.price) :=
  payment_split_rounding payment0 (by decide)

/-- C9: `debt_for_user` and `assets_for_user` fail with the `"user not found"`
error exactly when no roster member shares the probed user's id (names are
irrelevant, payments are irrelevant), and return normally exactly when some
roster member shares the id. -/
theorem lookup_by_id (e : Event) (u : User) :
    ((∃ ds, e.debt_for_user u = Except.ok ds) ↔ ∃ v ∈ e.users, v.id = u.id) ∧
    ((∃ xs, e.assets_for_user u = Except.ok xs) ↔ ∃ v ∈ e.users, v.id = u.id) ∧
    ((e.debt_for_user u = Except.error "user not found") ↔
      ¬ ∃ v ∈ e.users, v.id = u.id) ∧
    ((e.assets_for_user u = Except.error "user not found") ↔
      ¬ ∃ v ∈ e.users, v.id = u.id) := by
  have hcond : (e.users.any (fun v => v.alike u)) = true ↔ ∃ v ∈ e.users, v.id = u.id := by
    rw [List.any_eq_true]
    constructor
    · rintro ⟨v, hv, hvu⟩
      exact ⟨v, hv, by simpa [User.alike] using hvu⟩
    · rintro ⟨v, hv, hvu⟩
      exact ⟨v, hv, by simpa [User.alike] using hvu⟩
  unfold Event.debt_for_user Event.assets_for_user
  by_cases hc : (e.users.any (fun v => v.alike u)) = true
  · rw [if_neg (by simp [hc]), if_neg (by simp [hc])]
    have hex := hcond.mp hc
    refine ⟨?_, ?_, ?_, ?_⟩ <;> simp [hex]
  · have hcf : (e.users.any (fun v => v.alike u)) = false := by
      simpa using hc
    rw [if_pos (by simp [hcf]), if_pos (by simp [hcf])]
    have hnex : ¬ ∃ v ∈ e.users, v.id = u.id := fun he => hc (hcond.mpr he)
    refine ⟨?_, ?_, ?_, ?_⟩ <;> simp [hnex]

/-- C7 counterexample: on balances `[+5, +3]` (sum `8 ≠ 0`) the loop stops
immediately with TWO unsettled entries, not exactly one. -/
theorem residual_not_single_counterexample :
    sumTotals tmpsSameSign ≠ 0 ∧
    exchnangeTmps tmpsSameSign = some (RunResult.ok tmpsSameSign []) ∧
    (unsettledOf tmpsSameSign).length = 2 := by
  decide

/-- C7 (amended): if the input totals do not sum to zero, the loop stops
silently in a state with at least one unsettled entry, all unsettled entries
carrying the sign of the (preserved) nonzero total sum; the residual is left
unresolved. -/
theorem residual_majority_sign (tmps final : List TmpSummary) (exs : List Exchange)
    (hrun : exchnangeTmps tmps = some (RunResult.ok final exs))
    (hsum : sumTotals tmps ≠ 0) :
    unsettledOf final ≠ [] ∧
    sumTotals final = sumTotals tmps ∧
    (0 < sumTotals tmps → ∀ t ∈ unsettledOf final, 0 < t.total) ∧
    (sumTotals tmps < 0 → ∀ t ∈ unsettledOf final, t.total < 0) := by
  obtain ⟨-, -, hsumf, -, -, hmin, -⟩ := run_facts tmps final exs hrun
  have hps := posSum_nonneg final
  have hns := negSum_nonneg final
  have hsplit := sumTotals_eq_posSum_sub_negSum final
  refine ⟨?_, hsumf, ?_, ?_⟩
  · intro hnil
    exact hsum (by rw [← hsumf]; exact sumTotals_eq_zero_of_unsettled_nil hnil)
  · intro hgt t ht
    have hneg0 : negSum final = 0 := by
      rcases min_cases (posSum final) (negSum final) with ⟨he, hle⟩ | ⟨he, hle⟩
      · rw [he] at hmin
        omega
      · rw [he] at hmin
        exact hmin
    obtain ⟨htf, htd⟩ := List.mem_filter.mp ht
    rw [not_done_iff] at htd
    have hmem := member_le_negSum htf
    rw [hneg0] at hmem
    have h1 : -t.total ≤ 0 := le_trans (le_max_left _ _) hmem
    omega
  · intro hlt t ht
    have hpos0 : posSum final = 0 := by
      rcases min_cases (posSum final) (negSum final) with ⟨he, hle⟩ | ⟨he, hle⟩
      · rw [he] at hmin
        exact hmin
      · rw [he] at hmin
        omega
    obtain ⟨htf, htd⟩ := List.mem_filter.mp ht
    rw [not_done_iff] at htd
    have hmem := member_le_posSum htf
    rw [hpos0] at hmem
    have h1 : t.total ≤ 0 := le_trans (le_max_left _ _) hmem
    omega

/-- Witness for the amended C7 at the scenario-2 residual balances. -/
theorem residual_majority_sign_witness :
    unsettledOf [⟨userX, 1⟩, ⟨userY, 0⟩, ⟨userZ, 0⟩] ≠ [] ∧
    sumTotals [⟨userX, 1⟩, ⟨userY, 0⟩, ⟨userZ, 0⟩] = sumTotals tmpsResidual ∧
    (0 < sumTotals tmpsResidual →
      ∀ t ∈ unsettledOf [⟨userX, 1⟩, ⟨userY, 0⟩, ⟨userZ, 0⟩], 0 < t.total) ∧
    (sumTotals tmpsResidual < 0 →
      ∀ t ∈ unsettledOf [⟨userX, 1⟩, ⟨userY, 0⟩, ⟨userZ, 0⟩], t.total < 0) :=
  residual_majority_sign tmpsResidual [⟨userX, 1⟩, ⟨userY, 0⟩, ⟨userZ, 0⟩]
    [⟨33, userX, userY⟩, ⟨33, userX, userZ⟩] (by decide) (by decide)

/-- C6: for every valid (opposite-sign) resolve, the exchange price is
`min(|a|, |b|)` taken before the mutation, and payee/payer are the users of
whichever operand holds the larger/smaller total AFTER the mutation, both
comparisons resolving ties to the first operand `a`. -/
theorem resolve_exchange_parties (a b : TmpSummary) (h : a.total * b.total < 0)
    (ex : Exchange) (a' b' : TmpSummary)
    (hres : TmpSummary.resolve a b = (Except.ok ex, a', b')) :
    ex.price = min |a.total| |b.total| ∧
    a'.user = a.user ∧ b'.user = b.user ∧
    ex.payee = (if b'.total ≤ a'.total then a.user else b.user) ∧
    ex.payer = (if a'.total ≤ b'.total then a.user else b.user) := by
  have hguard : ¬ (a.total * b.total ≥ 0) := not_le.mpr h
  unfold TmpSummary.resolve at hres
  rw [if_neg hguard] at hres
  by_cases h0 : a.total + b.total = 0
  · rw [if_pos h0] at hres
    simp only [Prod.mk.injEq, Except.ok.injEq] at hres
    obtain ⟨hex, ha', hb'⟩ := hres
    subst hex
    subst ha'
    subst hb'
    refine ⟨?_, rfl, rfl, ?_, ?_⟩
    · dsimp only
      have habs : |a.total| = |b.total| := by
        rw [abs_eq_abs]
        right
        omega
      rw [min_eq_left (le_of_eq habs)]
    · dsimp only
      rw [bigger_user]
    · dsimp only
      rw [smaller_user]
  · rw [if_neg h0] at hres
    by_cases h1 : |a.total| < |b.total|
    · rw [if_pos h1] at hres
      simp only [Prod.mk.injEq, Except.ok.injEq] at hres
      obtain ⟨hex, ha', hb'⟩ := hres
      subst hex
      subst ha'
      subst hb'
      refine ⟨?_, rfl, rfl, ?_, ?_⟩
      · dsimp only
        rw [min_eq_left (le_of_lt h1)]
      · dsimp only
        rw [bigger_user]
      · dsimp only
        rw [smaller_user]
    · rw [if_neg h1] at hres
      simp only [Prod.mk.injEq, Except.ok.injEq] at hres
      obtain ⟨hex, ha', hb'⟩ := hres
      subst hex
      subst ha'
      subst hb'
      refine ⟨?_, rfl, rfl, ?_, ?_⟩
      · dsimp only
        rw [min_eq_right (not_lt.mp h1)]
      · dsimp only
        rw [bigger_user]
      · dsimp only
        rw [smaller_user]

/-- Witness for C6 at the concrete pair `(+5, -3)`. -/
theorem resolve_exchange_parties_witness :
    (3:Int) = min |(5:Int)| |(-3:Int)| ∧ userA = userA ∧ userB = userB ∧
    userA = (if (0:Int) ≤ 2 then userA else userB) ∧
    userB = (if (2:Int) ≤ 0 then userA else userB) :=
  resolve_exchange_parties ⟨userA, 5⟩ ⟨userB, -3⟩ (by decide) ⟨3, userA, userB⟩
    ⟨userA, 2⟩ ⟨userB, 0⟩ rfl

/-- C1: the settlement loop on scenario 1 (`A:+1000, B:-300, C:-700`) emits
two exchanges totalling 1000 and drives every total to 0, with first exchange
`{300, payee A, payer B}`; but the second exchange the code emits is
`{700, payee A, payer A}` — the exact-cancellation branch zeroes both totals
before choosing payee/payer, and both tie-break to the first operand — where
the claim expects `{700, payee A, payer C}`. -/
theorem scenario1_run :
    exchnange summariesScenario1
      = some (RunResult.ok
          [⟨userA, 0⟩, ⟨userB, 0⟩, ⟨userC, 0⟩]
          [{ price := 300, payee := userA, payer := userB },
           { price := 700, payee := userA, payer := userA }]) ∧
    priceSum [{ price := 300, payee := userA, payer := userB },
      { price := 700, payee := userA, payer := userA }] = 1000 := by
  decide
